import Mathlib

/-!
# Verification of `bytes-io` (`BufMutWriter`)

Shallow embedding of `src/lib.rs`: a buffering adapter that lets a
`BufMut`-style byte producer write into an `io::Write` sink.  The adapter
owns a fixed-capacity byte buffer (a `Vec<u8>` pre-allocated with
`Vec::with_capacity`), the sink, and an `Option<io::Error>` sticky-error
slot.

External interfaces are modelled from their documented contracts:
* the sink's `write_all(bytes)` either consumes all the bytes or fails
  (partial writes are not part of the contract); an empty `write_all`
  always succeeds without touching the underlying writer, as in `std`;
* the buffer is the spec's data model of `Vec<u8>` as a `BufMut`:
  a fixed capacity with a length ≤ capacity, `clear` resetting the length
  to 0, `extend`/`put_slice`/`put` appending within capacity, and
  `chunk_mut` viewing the unused tail.

The sink's behaviour is represented by a plan: a list of outcomes for the
successive (non-empty) `write_all` calls, `none` meaning success and
`some e` meaning failure with error `e`; an exhausted plan means every
further call succeeds.  Successful payloads are appended to a log, which
is what "bytes received by the sink" means below.
-/

namespace BytesIO

/-- An `io::Error`, identified by a numeric code. -/
abbrev Err := Nat

/-- A byte.  The adapter never inspects byte values, so any carrier works. -/
abbrev Byte := Nat

/-- State of a `BufMutWriter<W>` together with its sink `W`. -/
structure BufMutWriter where
  /-- `Vec::with_capacity` size; fixed at construction. -/
  cap : Nat
  /-- current contents of `self.buf` (so `buf.length` is `self.buf.len()`). -/
  buf : List Byte
  /-- `self.error : Option<io::Error>`. -/
  error : Option Err
  /-- payloads of the sink's successful `write_all` calls, in order. -/
  sink : List (List Byte)
  /-- outcomes of the forthcoming non-empty `write_all` calls. -/
  sinkPlan : List (Option Err)
  deriving DecidableEq, Repr

/-- `self.writer.write_all(bytes)`: all-or-nothing consumption of `bytes`.
An empty slice succeeds without reaching the writer (as in `std`). -/
def writeAll (w : BufMutWriter) (bytes : List Byte) :
    BufMutWriter × Option Err :=
  if bytes = [] then (w, none)
  else
    match w.sinkPlan with
    | [] => ({ w with sink := w.sink ++ [bytes] }, none)
    | none :: rest =>
        ({ w with sink := w.sink ++ [bytes], sinkPlan := rest }, none)
    | some e :: rest => ({ w with sinkPlan := rest }, some e)

/-- `BufMutWriter::with_capacity(writer, capacity)`.  The `plan` argument
is the behaviour of the supplied writer. -/
def with_capacity (plan : List (Option Err)) (capacity : Nat) : BufMutWriter :=
  { cap := capacity, buf := [], error := none, sink := [], sinkPlan := plan }

/-- `DEFAULT_CAPACITY = 8 * 1024`. -/
def DEFAULT_CAPACITY : Nat := 8 * 1024

/-- `BufMutWriter::new(writer)`. -/
def new (plan : List (Option Err)) : BufMutWriter :=
  with_capacity plan DEFAULT_CAPACITY

/-- `check`: `self.error.take()`, returned as `Err` if present. -/
def check (w : BufMutWriter) : BufMutWriter × Option Err :=
  match w.error with
  | some e => ({ w with error := none }, some e)
  | none => ({ w with error := none }, none)

/-- private `write`: if no error is pending, `write_all` the bytes and
record any failure; otherwise do nothing. -/
def write (w : BufMutWriter) (bytes : List Byte) : BufMutWriter :=
  if w.error = none then
    let p := writeAll w bytes
    { p.1 with error := p.2 }
  else w

/-- private `flush_buf`: if no error is pending, `write_all` the whole
buffer and record any failure; in every case `self.buf.clear()`. -/
def flush_buf (w : BufMutWriter) : BufMutWriter :=
  let w1 :=
    if w.error = none then
      let p := writeAll w w.buf
      { p.1 with error := p.2 }
    else w
  { w1 with buf := [] }

/-- `close`: final flush, then `check`. -/
def close (w : BufMutWriter) : BufMutWriter × Option Err :=
  check (flush_buf w)

/-- `remaining_mut`: `usize::MAX`. -/
def remaining_mut (_w : BufMutWriter) : Nat := 2 ^ 64 - 1

/-- `advance_mut(cnt)` after the caller wrote `written` bytes in place into
the region returned by `chunk_mut`: the buffer's length advances over
them.  The unsafe contract requires `written.length` to fit in the spare
room. -/
def advance_mut (w : BufMutWriter) (written : List Byte) : BufMutWriter :=
  { w with buf := w.buf ++ written }

/-- `chunk_mut`: flush first when the buffer is full, then view the unused
tail.  Returned alongside the state is the length of that writable
region. -/
def chunk_mut (w : BufMutWriter) : BufMutWriter × Nat :=
  let w1 := if w.buf.length = w.cap then flush_buf w else w
  (w1, w1.cap - w1.buf.length)

/-- A `Buf` source: the list of contiguous chunks it will yield.
`chunk()` is the head, `advance(head.len())` drops the head, and
`remaining()` is `chunksLen`. -/
abbrev Chunks := List (List Byte)

/-- `src.remaining()`: total bytes left in the source. -/
def chunksLen (cs : Chunks) : Nat := (cs.map List.length).sum

/-- The chunk-draining loop of `put`:
`while size > capacity { write(chunk); advance; }`. -/
def putLoop (w : BufMutWriter) (cs : Chunks) : BufMutWriter × Chunks :=
  match cs with
  | [] => (w, [])
  | c :: rest =>
      if chunksLen (c :: rest) > w.cap then putLoop (write w c) rest
      else (w, c :: rest)

/-- `put(src)`: flush if the source exceeds the remaining room, drain
whole chunks to the sink while the source exceeds the total capacity,
then (after `assert!(size <= capacity - len)`, whose failure is `none`)
copy the remainder into the buffer. -/
def put (w : BufMutWriter) (src : Chunks) : Option BufMutWriter :=
  let p :=
    if chunksLen src > w.cap - w.buf.length then putLoop (flush_buf w) src
    else (w, src)
  if chunksLen p.2 ≤ p.1.cap - p.1.buf.length then
    some { p.1 with buf := p.1.buf ++ p.2.flatten }
  else none

/-- `put_slice(src)`: buffer when it fits in the remaining room; otherwise
flush, then either buffer (when strictly smaller than the capacity) or
write straight to the sink. -/
def put_slice (w : BufMutWriter) (src : List Byte) : BufMutWriter :=
  if src.length ≤ w.cap - w.buf.length then
    { w with buf := w.buf ++ src }
  else
    let w1 := flush_buf w
    if src.length < w1.cap then { w1 with buf := w1.buf ++ src }
    else write w1 src

/-- All the bytes the sink has received, concatenated across its calls. -/
def sinkFlat (w : BufMutWriter) : List Byte := w.sink.flatten

/-- A sequence of `put_slice` calls. -/
def runSlices (w : BufMutWriter) (ss : List (List Byte)) : BufMutWriter :=
  ss.foldl put_slice w

/-- A healthy state over an always-succeeding sink: no pending error, an
exhausted plan (every further `write_all` succeeds), and the `Vec`
invariant `len ≤ capacity`. -/
def Ok (w : BufMutWriter) : Prop :=
  w.error = none ∧ w.sinkPlan = [] ∧ w.buf.length ≤ w.cap

/-- Every byte the adapter has accepted so far: delivered ones first,
buffered ones after. -/
def obs (w : BufMutWriter) : List Byte := sinkFlat w ++ w.buf

lemma flush_buf_ok (w : BufMutWriter) (hE : w.error = none)
    (hP : w.sinkPlan = []) :
    flush_buf w =
      { w with buf := [],
               sink := w.sink ++ (if w.buf = [] then [] else [w.buf]) } := by
  cases w with
  | mk cap buf error sink plan =>
    subst hE hP
    by_cases hb : buf = [] <;> simp [flush_buf, writeAll, hb]

lemma flush_buf_Ok (w : BufMutWriter) (h : Ok w) :
    Ok (flush_buf w) ∧ (flush_buf w).cap = w.cap ∧
      (flush_buf w).buf = [] ∧ obs (flush_buf w) = obs w := by
  obtain ⟨hE, hP, _⟩ := h
  rw [flush_buf_ok w hE hP]
  refine ⟨⟨hE, hP, by simp⟩, rfl, rfl, ?_⟩
  by_cases hb : w.buf = [] <;> simp [obs, sinkFlat, hb]

lemma write_ok (w : BufMutWriter) (bytes : List Byte) (hE : w.error = none)
    (hP : w.sinkPlan = []) :
    write w bytes =
      { w with sink := w.sink ++ (if bytes = [] then [] else [bytes]) } := by
  cases w with
  | mk cap buf error sink plan =>
    subst hE hP
    by_cases hb : bytes = [] <;> simp [write, writeAll, hb]

lemma put_slice_Ok (w : BufMutWriter) (s : List Byte) (h : Ok w) :
    Ok (put_slice w s) ∧ (put_slice w s).cap = w.cap ∧
      obs (put_slice w s) = obs w ++ s := by
  obtain ⟨hE, hP, hinv⟩ := h
  unfold put_slice
  by_cases h1 : s.length ≤ w.cap - w.buf.length
  · simp only [h1, if_true]
    refine ⟨⟨hE, hP, ?_⟩, ?_, ?_⟩
    · simp only [List.length_append]
      omega
    · trivial
    · simp [obs, sinkFlat]
  · simp only [h1, if_false]
    obtain ⟨hOk1, hcap1, hbuf1, hobs1⟩ := flush_buf_Ok w ⟨hE, hP, hinv⟩
    obtain ⟨hE1, hP1, hinv1⟩ := hOk1
    have key : (flush_buf w).sink.flatten = w.sink.flatten ++ w.buf := by
      simpa [obs, sinkFlat, hbuf1] using hobs1
    by_cases h2 : s.length < (flush_buf w).cap
    · simp only [h2, if_true]
      refine ⟨⟨hE1, hP1, ?_⟩, hcap1, ?_⟩
      · simp only [List.length_append, hbuf1, List.length_nil]
        omega
      · simp [obs, sinkFlat, hbuf1, key]
    · simp only [h2, if_false]
      rw [write_ok _ _ hE1 hP1]
      have hs : s ≠ [] := by
        intro hnil
        exact h1 (by simp [hnil])
      refine ⟨⟨hE1, hP1, by simp [hbuf1]⟩, by simpa using hcap1, ?_⟩
      simp [obs, sinkFlat, hbuf1, hs, key]

lemma runSlices_Ok (ss : List (List Byte)) (w : BufMutWriter) (h : Ok w) :
    Ok (runSlices w ss) ∧ (runSlices w ss).cap = w.cap ∧
      obs (runSlices w ss) = obs w ++ ss.flatten := by
  induction ss generalizing w with
  | nil => simpa [runSlices] using h
  | cons s ss ih =>
    obtain ⟨h1, hc1, ho1⟩ := put_slice_Ok w s h
    obtain ⟨h2, hc2, ho2⟩ := ih (put_slice w s) h1
    refine ⟨by simpa [runSlices] using h2, ?_, ?_⟩
    · simpa [runSlices, hc1] using hc2.trans hc1
    · simp only [runSlices, List.foldl_cons] at ho2 ⊢
      simp [ho2, ho1]

lemma check_eq (w : BufMutWriter) :
    check w = ({ w with error := none }, w.error) := by
  cases h : w.error <;> simp [check, h]

lemma writeAll_fields (w : BufMutWriter) (bytes : List Byte) :
    (writeAll w bytes).1.cap = w.cap ∧ (writeAll w bytes).1.buf = w.buf ∧
      (writeAll w bytes).1.error = w.error := by
  unfold writeAll
  by_cases h : bytes = []
  · simp [h]
  · cases hsp : w.sinkPlan with
    | nil => simp [h]
    | cons o rest => cases o <;> simp [h]

lemma write_fields (w : BufMutWriter) (bytes : List Byte) :
    (write w bytes).cap = w.cap ∧ (write w bytes).buf = w.buf := by
  unfold write
  by_cases hE : w.error = none
  · simp only [hE, if_true]
    exact ⟨(writeAll_fields w bytes).1, (writeAll_fields w bytes).2.1⟩
  · simp [hE]

lemma flush_buf_buf (w : BufMutWriter) : (flush_buf w).buf = [] := rfl

lemma flush_buf_cap (w : BufMutWriter) : (flush_buf w).cap = w.cap := by
  unfold flush_buf
  by_cases hE : w.error = none
  · simp only [hE, if_true]
    exact (writeAll_fields w w.buf).1
  · simp [hE]

lemma flush_buf_err (w : BufMutWriter) (e : Err) (h : w.error = some e) :
    flush_buf w = { w with buf := [] } := by
  simp [flush_buf, h]

lemma write_err (w : BufMutWriter) (bytes : List Byte) (e : Err)
    (h : w.error = some e) : write w bytes = w := by
  simp [write, h]

lemma flush_buf_fail (w : BufMutWriter) (e : Err) (rest : List (Option Err))
    (hE : w.error = none) (hb : w.buf ≠ []) (hP : w.sinkPlan = some e :: rest) :
    flush_buf w = { w with buf := [], error := some e, sinkPlan := rest } := by
  cases w with
  | mk cap buf error sink plan =>
    subst hE hP
    simp_all [flush_buf, writeAll]

lemma close_Ok (w : BufMutWriter) (h : Ok w) :
    (close w).2 = none ∧ sinkFlat (close w).1 = obs w := by
  obtain ⟨hOk1, hcap1, hbuf1, hobs1⟩ := flush_buf_Ok w h
  obtain ⟨hE1, hP1, hinv1⟩ := hOk1
  unfold close
  rw [check_eq]
  refine ⟨hE1, ?_⟩
  have hs : sinkFlat { flush_buf w with error := none } =
      sinkFlat (flush_buf w) := rfl
  rw [hs]
  simpa [obs, sinkFlat, hbuf1] using hobs1

lemma putLoop_fields (cs : Chunks) : ∀ w : BufMutWriter,
    (putLoop w cs).1.buf = w.buf ∧ (putLoop w cs).1.cap = w.cap ∧
      chunksLen (putLoop w cs).2 ≤ w.cap := by
  induction cs with
  | nil =>
    intro w
    exact ⟨rfl, rfl, by simp [putLoop, chunksLen]⟩
  | cons c rest ih =>
    intro w
    by_cases hbig : chunksLen (c :: rest) > w.cap
    · have step : putLoop w (c :: rest) = putLoop (write w c) rest := by
        simp [putLoop, hbig]
      obtain ⟨h1, h2, h3⟩ := ih (write w c)
      obtain ⟨hc, hb⟩ := write_fields w c
      rw [step]
      exact ⟨h1.trans hb, h2.trans hc, hc ▸ h3⟩
    · have step : putLoop w (c :: rest) = (w, c :: rest) := by
        simp [putLoop, hbig]
      rw [step]
      exact ⟨rfl, rfl, Nat.le_of_not_lt hbig⟩

lemma chunksLen_eq_flatten (cs : Chunks) : chunksLen cs = cs.flatten.length := by
  induction cs with
  | nil => rfl
  | cons c rest ih =>
    simp only [chunksLen, List.map_cons, List.sum_cons, List.flatten_cons,
      List.length_append] at ih ⊢
    omega

/-- **C1**: any sequence of `put_slice` calls followed by `close()`, over a
sink whose `write_all` never fails, delivers to the sink exactly the
concatenation of the appended slices, in order, and `close()` returns
`Ok(())`. -/
theorem put_slice_close_delivers_all (capacity : Nat)
    (ss : List (List Byte)) :
    (close (runSlices (with_capacity [] capacity) ss)).2 = none ∧
    sinkFlat (close (runSlices (with_capacity [] capacity) ss)).1 =
      ss.flatten := by
  have h0 : Ok (with_capacity [] capacity) := ⟨rfl, rfl, by simp [with_capacity]⟩
  obtain ⟨h1, hc, ho⟩ := runSlices_Ok ss _ h0
  obtain ⟨hc2, hcs⟩ := close_Ok _ h1
  refine ⟨hc2, ?_⟩
  rw [hcs, ho]
  simp [obs, sinkFlat, with_capacity]

/-- **C6**: with capacity 16, appending a 10-byte slice buffers it with the
sink untouched; appending a second 10-byte slice flushes the first 10
bytes and buffers the second 10; `close()` then delivers the rest, so the
sink ends with all 20 bytes in order. -/
theorem scenario_capacity16 :
    put_slice (with_capacity [] 16) (List.replicate 10 1) =
      { with_capacity [] 16 with buf := List.replicate 10 1 } ∧
    (put_slice (put_slice (with_capacity [] 16) (List.replicate 10 1))
        (List.replicate 10 2)).sink = [List.replicate 10 1] ∧
    (put_slice (put_slice (with_capacity [] 16) (List.replicate 10 1))
        (List.replicate 10 2)).buf = List.replicate 10 2 ∧
    (close (put_slice (put_slice (with_capacity [] 16) (List.replicate 10 1))
        (List.replicate 10 2))).2 = none ∧
    sinkFlat (close (put_slice (put_slice (with_capacity [] 16)
        (List.replicate 10 1)) (List.replicate 10 2))).1 =
      List.replicate 10 1 ++ List.replicate 10 2 := by
  decide

/-- **C10**: `check` only takes the pending error: the buffer, sink log,
plan and capacity are untouched, the returned value is the old error slot,
the slot is emptied, and with no pending error the state is unchanged. -/
theorem check_frame (w : BufMutWriter) :
    (check w).1 = { w with error := none } ∧ (check w).2 = w.error ∧
    (check w).1.buf = w.buf ∧ (check w).1.sink = w.sink ∧
    (check w).1.sinkPlan = w.sinkPlan ∧ (check w).1.cap = w.cap ∧
    (w.error = none → (check w).1 = w) := by
  rw [check_eq]
  refine ⟨rfl, rfl, rfl, rfl, rfl, rfl, ?_⟩
  intro hE
  cases w with
  | mk cap buf error sink plan =>
    subst hE
    rfl

/-- Witness for `check_frame`: a no-error state is returned unchanged. -/
theorem check_frame_witness :
    (check ⟨4, [1, 2], none, [[3]], []⟩).1 = ⟨4, [1, 2], none, [[3]], []⟩ ∧
    (check ⟨4, [1, 2], none, [[3]], []⟩).2 = none :=
  ⟨(check_frame ⟨4, [1, 2], none, [[3]], []⟩).2.2.2.2.2.2 rfl,
   (check_frame ⟨4, [1, 2], none, [[3]], []⟩).2.1⟩

/-- **C2** counterexample: with capacity 1 and an empty buffer, a 1-byte
slice — of length equal to (hence `≥`) the capacity — is copied into the
internal buffer and the sink receives nothing, so a slice with
`src.len() ≥ C` does not always bypass the buffer. -/
theorem put_slice_len_eq_cap_buffered :
    (with_capacity [] 1).cap ≤ ([7] : List Byte).length ∧
    (put_slice (with_capacity [] 1) [7]).buf = [7] ∧
    (put_slice (with_capacity [] 1) [7]).sink = [] := by
  decide

/-- **C2** (amended): a slice with `src.len() ≥ C` bypasses the buffer
whenever it also exceeds the buffer's remaining room (in particular
whenever the buffer is nonempty or `src.len() > C`): any buffered bytes
are flushed, `src` goes to the sink as its own write call, and the buffer
ends empty — `src` is never copied into it. -/
theorem put_slice_bypass_amended (w : BufMutWriter) (s : List Byte)
    (hbig : w.cap ≤ s.length) (hroom : w.cap - w.buf.length < s.length)
    (hE : w.error = none) (hP : w.sinkPlan = []) :
    (put_slice w s).buf = [] ∧
    (put_slice w s).sink =
      w.sink ++ (if w.buf = [] then [] else [w.buf]) ++ [s] := by
  have h1 : ¬ s.length ≤ w.cap - w.buf.length := Nat.not_le.mpr hroom
  have hfb := flush_buf_ok w hE hP
  have h2 : ¬ s.length < (flush_buf w).cap := by
    rw [flush_buf_cap]
    exact Nat.not_lt.mpr hbig
  have hs : s ≠ [] := by
    intro hnil
    rw [hnil] at hroom
    simp at hroom
  unfold put_slice
  simp only [h1, if_false, h2, if_false]
  have hE1 : (flush_buf w).error = none := by rw [hfb]; exact hE
  have hP1 : (flush_buf w).sinkPlan = [] := by rw [hfb]; exact hP
  rw [write_ok _ _ hE1 hP1]
  simp only [hs, if_false]
  refine ⟨flush_buf_buf w, ?_⟩
  show (flush_buf w).sink ++ [s] = w.sink ++ _ ++ [s]
  rw [hfb]

/-- Witness for `put_slice_bypass_amended`: capacity 2, one byte buffered,
a 2-byte slice goes straight to the sink after the flush. -/
theorem put_slice_bypass_amended_witness :
    (put_slice (⟨2, [1], none, [], []⟩ : BufMutWriter) [5, 6]).buf = [] ∧
    (put_slice (⟨2, [1], none, [], []⟩ : BufMutWriter) [5, 6]).sink =
      [[1], [5, 6]] := by
  have h := put_slice_bypass_amended ⟨2, [1], none, [], []⟩ [5, 6]
    (by decide) (by decide) rfl rfl
  simpa using h

/-- **C4**: `flush_buf` always resets the buffer to empty and keeps the
capacity; with no pending error it hands the whole buffer to the sink in
one `write_all` call and records any resulting error; with a failing sink
the buffered bytes are lost (sink log unchanged, error recorded); with a
pending error nothing reaches the sink and the buffer is still discarded. -/
theorem flush_buf_spec (w : BufMutWriter) :
    (flush_buf w).buf = [] ∧ (flush_buf w).cap = w.cap ∧
    (w.error = none → w.sinkPlan = [] →
      (flush_buf w).sink = w.sink ++ (if w.buf = [] then [] else [w.buf]) ∧
      (flush_buf w).error = none) ∧
    (∀ e rest, w.error = none → w.buf ≠ [] → w.sinkPlan = some e :: rest →
      (flush_buf w).sink = w.sink ∧ (flush_buf w).error = some e) ∧
    (∀ e, w.error = some e →
      (flush_buf w).sink = w.sink ∧ (flush_buf w).error = some e) := by
  refine ⟨flush_buf_buf w, flush_buf_cap w, ?_, ?_, ?_⟩
  · intro hE hP
    rw [flush_buf_ok w hE hP]
    exact ⟨rfl, hE⟩
  · intro e rest hE hb hP
    rw [flush_buf_fail w e rest hE hb hP]
    exact ⟨rfl, rfl⟩
  · intro e hE
    rw [flush_buf_err w e hE]
    exact ⟨rfl, hE⟩

/-- Witness for `flush_buf_spec`: a failing flush records the error, loses
the buffered byte, and empties the buffer. -/
theorem flush_buf_spec_witness :
    (flush_buf (⟨4, [9], none, [], [some 3]⟩ : BufMutWriter)).buf = [] ∧
    (flush_buf (⟨4, [9], none, [], [some 3]⟩ : BufMutWriter)).sink = [] ∧
    (flush_buf (⟨4, [9], none, [], [some 3]⟩ : BufMutWriter)).error = some 3 := by
  have h := flush_buf_spec ⟨4, [9], none, [], [some 3]⟩
  exact ⟨h.1, (h.2.2.2.1 3 [] rfl (by decide) rfl).1,
    (h.2.2.2.1 3 [] rfl (by decide) rfl).2⟩

lemma putLoop_err (cs : Chunks) : ∀ (w : BufMutWriter) (e : Err),
    w.error = some e → (putLoop w cs).1 = w := by
  induction cs with
  | nil => intro w e _; rfl
  | cons c rest ih =>
    intro w e h
    by_cases hbig : chunksLen (c :: rest) > w.cap
    · have step : putLoop w (c :: rest) = putLoop (write w c) rest := by
        simp [putLoop, hbig]
      rw [step, write_err w c e h]
      exact ih w e h
    · simp [putLoop, hbig]

/-- **C3**: with an error pending, `flush_buf`, `write`, `put_slice` and
`put` deliver nothing further to the sink; `check` then returns that error
exactly once, leaving the slot empty, and a second `check` returns no
error. -/
theorem sticky_error_suppresses_and_check_clears (w : BufMutWriter) (e : Err)
    (h : w.error = some e) (bytes s : List Byte) (cs : Chunks) :
    (flush_buf w).sink = w.sink ∧
    (write w bytes).sink = w.sink ∧
    (put_slice w s).sink = w.sink ∧
    (∀ w', put w cs = some w' → w'.sink = w.sink) ∧
    (check w).2 = some e ∧ (check w).1.error = none ∧
    (check (check w).1).2 = none := by
  refine ⟨?_, ?_, ?_, ?_, ?_, ?_, ?_⟩
  · rw [flush_buf_err w e h]
  · rw [write_err w bytes e h]
  · unfold put_slice
    by_cases h1 : s.length ≤ w.cap - w.buf.length
    · simp only [h1, if_true]
    · simp only [h1, if_false]
      rw [flush_buf_err w e h]
      by_cases h2 :
          s.length < ({ w with buf := ([] : List Byte) } : BufMutWriter).cap
      · simp only [h2, if_true]
      · simp only [h2, if_false]
        rw [write_err { w with buf := ([] : List Byte) } s e h]
  · intro w' hw'
    unfold put at hw'
    by_cases hflush : chunksLen cs > w.cap - w.buf.length
    · simp only [hflush, if_true] at hw'
      rw [flush_buf_err w e h] at hw'
      have hp1 := putLoop_err cs { w with buf := ([] : List Byte) } e h
      split at hw'
      · cases hw'
        simp [hp1]
      · cases hw'
    · simp only [hflush, if_false] at hw'
      split at hw'
      · cases hw'
        rfl
      · cases hw'
  · rw [check_eq]
    exact h
  · rw [check_eq]
  · rw [check_eq, check_eq]

/-- Witness for `sticky_error_suppresses_and_check_clears` at a concrete
errored state. -/
theorem sticky_error_witness :
    (flush_buf (⟨2, [4], some 7, [[9]], []⟩ : BufMutWriter)).sink = [[9]] ∧
    (put_slice (⟨2, [4], some 7, [[9]], []⟩ : BufMutWriter) [2, 3]).sink =
      [[9]] ∧
    (check (⟨2, [4], some 7, [[9]], []⟩ : BufMutWriter)).2 = some 7 ∧
    (check (check (⟨2, [4], some 7, [[9]], []⟩ : BufMutWriter)).1).2 = none := by
  have h := sticky_error_suppresses_and_check_clears
    ⟨2, [4], some 7, [[9]], []⟩ 7 rfl [1] [2, 3] [[5]]
  exact ⟨h.1, h.2.2.1, h.2.2.2.2.1, h.2.2.2.2.2.2⟩

lemma putLoop_sink (cs : Chunks) : ∀ w : BufMutWriter, w.error = none →
    w.sinkPlan = [] → (∀ c ∈ cs, c ≠ []) →
    ∃ k, (putLoop w cs).2 = cs.drop k ∧
      (putLoop w cs).1.sink = w.sink ++ cs.take k ∧
      (putLoop w cs).1.error = none ∧ (putLoop w cs).1.sinkPlan = [] := by
  induction cs with
  | nil =>
    intro w hE hP _
    exact ⟨0, rfl, by simp [putLoop], hE, hP⟩
  | cons c rest ih =>
    intro w hE hP hwf
    by_cases hbig : chunksLen (c :: rest) > w.cap
    · have hc : c ≠ [] := hwf c (by simp)
      have hw : write w c = { w with sink := w.sink ++ [c] } := by
        rw [write_ok w c hE hP]
        simp [hc]
      have step : putLoop w (c :: rest) = putLoop (write w c) rest := by
        simp [putLoop, hbig]
      have hE' : (write w c).error = none := by rw [hw]; exact hE
      have hP' : (write w c).sinkPlan = [] := by rw [hw]; exact hP
      obtain ⟨k, h1, h2, h3, h4⟩ := ih (write w c) hE' hP'
        (fun x hx => hwf x (List.mem_cons_of_mem c hx))
      refine ⟨k + 1, ?_, ?_, ?_, ?_⟩
      · rw [step, h1]
        rfl
      · rw [step, h2, hw]
        simp
      · rw [step]; exact h3
      · rw [step]; exact h4
    · have step : putLoop w (c :: rest) = (w, c :: rest) := by
        simp [putLoop, hbig]
      exact ⟨0, by rw [step]; rfl, by rw [step]; simp, by rw [step]; exact hE,
        by rw [step]; exact hP⟩

/-- **C5**: over an always-succeeding sink, `put` of a multi-chunk source
larger than the capacity flushes the buffer, writes a prefix of the chunks
to the sink one by one in source order, and leaves the remainder — which
fits within capacity — in the buffer, not yet flushed; no byte is lost or
reordered. -/
theorem put_chunks_in_order (w : BufMutWriter) (cs : Chunks)
    (hE : w.error = none) (hP : w.sinkPlan = [])
    (hwf : ∀ c ∈ cs, c ≠ [])
    (hbig : w.cap < chunksLen cs) :
    ∃ w' k, put w cs = some w' ∧
      w'.sink = w.sink ++ (if w.buf = [] then [] else [w.buf]) ++ cs.take k ∧
      w'.buf = (cs.drop k).flatten ∧
      chunksLen (cs.drop k) ≤ w.cap ∧
      sinkFlat w' ++ w'.buf = sinkFlat w ++ w.buf ++ cs.flatten := by
  have hflush : chunksLen cs > w.cap - w.buf.length :=
    Nat.lt_of_le_of_lt (Nat.sub_le w.cap w.buf.length) hbig
  have hfb := flush_buf_ok w hE hP
  have hEf : (flush_buf w).error = none := by rw [hfb]; exact hE
  have hPf : (flush_buf w).sinkPlan = [] := by rw [hfb]; exact hP
  have hfsink : (flush_buf w).sink =
      w.sink ++ (if w.buf = [] then [] else [w.buf]) := by rw [hfb]
  obtain ⟨k, h1, h2, h3, h4⟩ := putLoop_sink cs (flush_buf w) hEf hPf hwf
  obtain ⟨hbf, hcf, hlf⟩ := putLoop_fields cs (flush_buf w)
  have hguard : chunksLen (putLoop (flush_buf w) cs).2 ≤
      (putLoop (flush_buf w) cs).1.cap -
        (putLoop (flush_buf w) cs).1.buf.length := by
    rw [hbf, flush_buf_buf, hcf]
    simpa using hlf
  have hput : put w cs =
      some { (putLoop (flush_buf w) cs).1 with
             buf := (putLoop (flush_buf w) cs).1.buf ++
               (putLoop (flush_buf w) cs).2.flatten } := by
    unfold put
    simp only [hflush, if_true, hguard]
  refine ⟨_, k, hput, ?_, ?_, ?_, ?_⟩
  · show (putLoop (flush_buf w) cs).1.sink = _
    rw [h2, hfsink]
  · show (putLoop (flush_buf w) cs).1.buf ++
      (putLoop (flush_buf w) cs).2.flatten = _
    rw [hbf, flush_buf_buf, h1]
    simp
  · rw [← h1]
    rw [flush_buf_cap] at hlf
    exact hlf
  · show (putLoop (flush_buf w) cs).1.sink.flatten ++
      ((putLoop (flush_buf w) cs).1.buf ++
        (putLoop (flush_buf w) cs).2.flatten) = _
    rw [h2, hfsink, hbf, flush_buf_buf, h1]
    have hsplit : (cs.take k).flatten ++ (cs.drop k).flatten = cs.flatten := by
      rw [← List.flatten_append, List.take_append_drop]
    by_cases hb : w.buf = []
    · simp only [hb, if_true, sinkFlat]
      simp [← hsplit]
    · simp only [hb, if_false, sinkFlat]
      simp [← hsplit]

/-- Witness for `put_chunks_in_order`: capacity 2, chunks `[1,2,3]` and
`[4]`; the first chunk is written through, the second stays buffered. -/
theorem put_chunks_in_order_witness :
    ∃ (w' : BufMutWriter) (k : Nat),
      put (with_capacity [] 2) [[1, 2, 3], [4]] = some w' ∧
      w'.sink = (with_capacity [] 2).sink ++
        (if (with_capacity [] 2).buf = [] then []
         else [(with_capacity [] 2).buf]) ++
        ([[1, 2, 3], [4]] : Chunks).take k ∧
      w'.buf = (([[1, 2, 3], [4]] : Chunks).drop k).flatten ∧
      chunksLen (([[1, 2, 3], [4]] : Chunks).drop k) ≤ (with_capacity [] 2).cap ∧
      sinkFlat w' ++ w'.buf = sinkFlat (with_capacity [] 2) ++
        (with_capacity [] 2).buf ++ ([[1, 2, 3], [4]] : Chunks).flatten :=
  put_chunks_in_order (with_capacity [] 2) [[1, 2, 3], [4]] rfl rfl
    (by decide) (by decide)

/-- **C7**: for a well-formed source (no empty chunk while bytes remain)
and a buffer satisfying `len ≤ capacity`, the `assert!(size <= capacity -
len)` before the final copy in `put` always holds, so `put` never panics. -/
theorem put_assert_never_fails (w : BufMutWriter) (cs : Chunks)
    (hinv : w.buf.length ≤ w.cap) (hwf : ∀ c ∈ cs, c ≠ []) :
    (put w cs).isSome := by
  unfold put
  by_cases hflush : chunksLen cs > w.cap - w.buf.length
  · simp only [hflush, if_true]
    obtain ⟨hbf, hcf, hlf⟩ := putLoop_fields cs (flush_buf w)
    have hguard : chunksLen (putLoop (flush_buf w) cs).2 ≤
        (putLoop (flush_buf w) cs).1.cap -
          (putLoop (flush_buf w) cs).1.buf.length := by
      rw [hbf, flush_buf_buf, hcf]
      simpa using hlf
    simp [hguard]
  · simp only [hflush, if_false]
    simp [Nat.le_of_not_lt hflush]

/-- Witness for `put_assert_never_fails` on a concrete large source. -/
theorem put_assert_never_fails_witness :
    (put (⟨2, [1], none, [], []⟩ : BufMutWriter) [[1, 2, 3]]).isSome :=
  put_assert_never_fails ⟨2, [1], none, [], []⟩ [[1, 2, 3]]
    (by decide) (by decide)

lemma put_slice_inv (w : BufMutWriter) (s : List Byte)
    (h : w.buf.length ≤ w.cap) :
    (put_slice w s).buf.length ≤ (put_slice w s).cap ∧
      (put_slice w s).cap = w.cap := by
  unfold put_slice
  by_cases h1 : s.length ≤ w.cap - w.buf.length
  · simp only [h1, if_true]
    constructor
    · show (w.buf ++ s).length ≤ w.cap
      rw [List.length_append]
      omega
    · trivial
  · simp only [h1, if_false]
    by_cases h2 : s.length < (flush_buf w).cap
    · simp only [h2, if_true]
      rw [flush_buf_cap] at h2
      constructor
      · show ((flush_buf w).buf ++ s).length ≤ (flush_buf w).cap
        rw [flush_buf_buf, flush_buf_cap]
        simpa using Nat.le_of_lt h2
      · exact flush_buf_cap w
    · simp only [h2, if_false]
      obtain ⟨hc, hb⟩ := write_fields (flush_buf w) s
      constructor
      · rw [hb, hc, flush_buf_buf, flush_buf_cap]
        simp
      · rw [hc, flush_buf_cap]

lemma put_inv (w : BufMutWriter) (cs : Chunks) (w' : BufMutWriter)
    (h : w.buf.length ≤ w.cap) (hp : put w cs = some w') :
    w'.buf.length ≤ w'.cap ∧ w'.cap = w.cap := by
  unfold put at hp
  by_cases hflush : chunksLen cs > w.cap - w.buf.length
  · simp only [hflush, if_true] at hp
    obtain ⟨hbf, hcf, hlf⟩ := putLoop_fields cs (flush_buf w)
    split at hp
    · cases hp
      have hcap : (putLoop (flush_buf w) cs).1.cap = w.cap :=
        hcf.trans (flush_buf_cap w)
      refine ⟨?_, hcap⟩
      show ((putLoop (flush_buf w) cs).1.buf ++
        (putLoop (flush_buf w) cs).2.flatten).length ≤
          (putLoop (flush_buf w) cs).1.cap
      rw [hbf, flush_buf_buf, hcap]
      simp only [List.nil_append, ← chunksLen_eq_flatten]
      rw [flush_buf_cap] at hlf
      exact hlf
    · cases hp
  · simp only [hflush, if_false] at hp
    split at hp
    · rename_i hguard
      cases hp
      refine ⟨?_, rfl⟩
      show (w.buf ++ cs.flatten).length ≤ w.cap
      rw [List.length_append, ← chunksLen_eq_flatten]
      omega
    · cases hp

lemma chunk_mut_fst (w : BufMutWriter) :
    (chunk_mut w).1 = if w.buf.length = w.cap then flush_buf w else w := rfl

lemma chunk_mut_snd (w : BufMutWriter) :
    (chunk_mut w).2 = (chunk_mut w).1.cap - (chunk_mut w).1.buf.length := rfl

/-- **C8**: every operation keeps `buf.length ≤ cap` (given the `Vec`
invariant on entry, and for `advance_mut` its unsafe precondition) and
leaves the construction-time capacity unchanged. -/
theorem length_le_cap_and_cap_fixed (w : BufMutWriter)
    (h : w.buf.length ≤ w.cap) :
    (∀ s, (put_slice w s).buf.length ≤ (put_slice w s).cap ∧
      (put_slice w s).cap = w.cap) ∧
    (∀ cs w', put w cs = some w' →
      w'.buf.length ≤ w'.cap ∧ w'.cap = w.cap) ∧
    ((chunk_mut w).1.buf.length ≤ (chunk_mut w).1.cap ∧
      (chunk_mut w).1.cap = w.cap) ∧
    (∀ written : List Byte, written.length ≤ w.cap - w.buf.length →
      (advance_mut w written).buf.length ≤ (advance_mut w written).cap ∧
      (advance_mut w written).cap = w.cap) ∧
    ((flush_buf w).buf.length ≤ (flush_buf w).cap ∧
      (flush_buf w).cap = w.cap) ∧
    ((check w).1.buf.length ≤ (check w).1.cap ∧ (check w).1.cap = w.cap) ∧
    ((close w).1.buf.length ≤ (close w).1.cap ∧ (close w).1.cap = w.cap) := by
  refine ⟨fun s => put_slice_inv w s h, fun cs w' => put_inv w cs w' h,
    ?_, ?_, ?_, ?_, ?_⟩
  · rw [chunk_mut_fst]
    by_cases hfull : w.buf.length = w.cap
    · simp only [hfull, if_true]
      rw [flush_buf_buf, flush_buf_cap]
      exact ⟨Nat.zero_le _, rfl⟩
    · simp only [hfull, if_false]
      exact ⟨h, trivial⟩
  · intro written hw
    refine ⟨?_, rfl⟩
    show (w.buf ++ written).length ≤ w.cap
    rw [List.length_append]
    omega
  · rw [flush_buf_buf, flush_buf_cap]
    exact ⟨Nat.zero_le _, rfl⟩
  · rw [check_eq]
    exact ⟨h, rfl⟩
  · show (check (flush_buf w)).1.buf.length ≤ (check (flush_buf w)).1.cap ∧
      (check (flush_buf w)).1.cap = w.cap
    rw [check_eq]
    show (flush_buf w).buf.length ≤ (flush_buf w).cap ∧
      (flush_buf w).cap = w.cap
    rw [flush_buf_buf, flush_buf_cap]
    exact ⟨Nat.zero_le _, rfl⟩

/-- Witness for `length_le_cap_and_cap_fixed` at a concrete state. -/
theorem length_le_cap_witness :
    (put_slice (⟨3, [1], none, [], []⟩ : BufMutWriter) [2]).buf.length ≤
      (put_slice (⟨3, [1], none, [], []⟩ : BufMutWriter) [2]).cap ∧
    (advance_mut (⟨3, [1], none, [], []⟩ : BufMutWriter) [2, 3]).buf.length ≤
      (advance_mut (⟨3, [1], none, [], []⟩ : BufMutWriter) [2, 3]).cap := by
  have h := length_le_cap_and_cap_fixed ⟨3, [1], none, [], []⟩ (by decide)
  exact ⟨(h.1 [2]).1, (h.2.2.2.1 [2, 3] (by decide)).1⟩

/-- **C9**: `chunk_mut` flushes exactly when the buffer is full, returns
the unused tail of the buffer as the writable region, and that region has
length at least 1 whenever the capacity is positive. -/
theorem chunk_mut_spec (w : BufMutWriter) (h : w.buf.length ≤ w.cap) :
    (w.buf.length = w.cap →
      (chunk_mut w).1 = flush_buf w ∧ (chunk_mut w).2 = w.cap) ∧
    (w.buf.length ≠ w.cap →
      (chunk_mut w).1 = w ∧ (chunk_mut w).2 = w.cap - w.buf.length) ∧
    (0 < w.cap → 1 ≤ (chunk_mut w).2) := by
  refine ⟨?_, ?_, ?_⟩
  · intro hfull
    have h1 : (chunk_mut w).1 = flush_buf w := by
      rw [chunk_mut_fst]
      simp [hfull]
    refine ⟨h1, ?_⟩
    rw [chunk_mut_snd, h1, flush_buf_buf, flush_buf_cap]
    simp
  · intro hne
    have h1 : (chunk_mut w).1 = w := by
      rw [chunk_mut_fst]
      simp [hne]
    exact ⟨h1, by rw [chunk_mut_snd, h1]⟩
  · intro hpos
    rw [chunk_mut_snd, chunk_mut_fst]
    by_cases hfull : w.buf.length = w.cap
    · simp only [hfull, if_true]
      rw [flush_buf_buf, flush_buf_cap]
      simpa using hpos
    · simp only [hfull, if_false]
      omega

/-- Witness for `chunk_mut_spec`: a full 2-byte buffer is flushed and the
whole capacity becomes writable. -/
theorem chunk_mut_spec_witness :
    (chunk_mut (⟨2, [5, 6], none, [], []⟩ : BufMutWriter)).1 =
      flush_buf (⟨2, [5, 6], none, [], []⟩ : BufMutWriter) ∧
    (chunk_mut (⟨2, [5, 6], none, [], []⟩ : BufMutWriter)).2 = 2 ∧
    1 ≤ (chunk_mut (⟨2, [5, 6], none, [], []⟩ : BufMutWriter)).2 := by
  have h := chunk_mut_spec ⟨2, [5, 6], none, [], []⟩ (by decide)
  exact ⟨(h.1 rfl).1, (h.1 rfl).2, h.2.2 (by decide)⟩

end BytesIO
